import Mathlib

/-!
Shallow embedding of the otoshi-launcher-backend native helpers:

* `src/native/c/crypto_helper/otoshi_crypto_helper.c`
  (`otoshi_fnv1a64`, `otoshi_consttime_eq`)
* `src/native/cpp/fs_scanner/otoshi_fs_scanner.cpp`
  (`fnv1a64_file`, `main`)

Machine integers are modelled as `Nat` reduced modulo `2 ^ 64` exactly where
the C code performs a wrapping `uint64_t` operation.  Bytes are `Fin 256`,
matching `uint8_t`.  A possibly-null pointer to a byte buffer is modelled as
an `Option (List Byte)`, the list being the bytes the C code would read.
-/

namespace Otoshi

/-- Modulus of `uint64_t` arithmetic. -/
def U64 : Nat := 2 ^ 64

/-- FNV-1a 64-bit offset basis (`offset` / `kOffset` in the sources). -/
def fnvOffset : Nat := 1469598103934665603

/-- FNV-1a 64-bit prime (`prime` / `kPrime` in the sources). -/
def fnvPrime : Nat := 1099511628211

/-- A byte, the value of a C `uint8_t`. -/
abbrev Byte := Fin 256

/-- One iteration of the loop body of `otoshi_fnv1a64`
(`hash ^= (uint64_t)data[i]; hash *= prime;`).  The XOR of a value below
`2 ^ 64` with a byte stays below `2 ^ 64`, so only the multiplication wraps. -/
def fnvStep (hash : Nat) (b : Byte) : Nat :=
  ((hash ^^^ b.val) * fnvPrime) % U64

/-- The `for (size_t i = 0; i < len; ++i)` loop of `otoshi_fnv1a64`, carrying
the running `hash` accumulator.  This carried accumulator is exactly the
running state a caller continues a stream with. -/
def fnvLoop : List Byte → Nat → Nat
  | [], hash => hash
  | b :: rest, hash => fnvLoop rest (fnvStep hash b)

/-- `otoshi_fnv1a64(data, len)` from `otoshi_crypto_helper.c`: `none` models a
`NULL` data pointer (returned untouched as the offset basis); `some bytes`
models a non-null pointer to the `len` bytes the function reads. -/
def otoshi_fnv1a64 (data : Option (List Byte)) : Nat :=
  match data with
  | none => fnvOffset
  | some bytes => fnvLoop bytes fnvOffset

/-- Hashing a stream chunk by chunk: each chunk is hashed by the `fnvLoop`
primitive seeded with the accumulator left by the previous chunk, the first
chunk being seeded with the offset basis. -/
def fnv1a64_chunked (chunks : List (List Byte)) : Nat :=
  chunks.foldl (fun acc chunk => fnvLoop chunk acc) fnvOffset

/-- The `while (in.good())` read loop of `fnv1a64_file` in
`otoshi_fs_scanner.cpp`: each `in.read(buffer, 8192)` delivers the next (at
most) 8192 bytes of the file, and only the `gcount()` bytes actually read are
hashed.  The final zero-byte read that turns off `good()` hashes nothing. -/
def fnv1a64_file_loop (bytes : List Byte) (hash : Nat) : Nat :=
  if bytes.isEmpty then hash
  else fnv1a64_file_loop (bytes.drop 8192) (fnvLoop (bytes.take 8192) hash)
termination_by bytes.length
decreasing_by
  simp only [List.length_drop]
  have hne : bytes ≠ [] := by
    intro h
    subst h
    simp_all
  have hpos : 0 < bytes.length := List.length_pos.mpr hne
  omega

/-- `fnv1a64_file(file_path)` from `otoshi_fs_scanner.cpp`: `none` models a
path whose `std::ifstream` fails to open (the function returns the offset
basis untouched); `some bytes` models an opened file with that byte content,
read to end-of-stream in 8192-byte chunks. -/
def fnv1a64_file (contents : Option (List Byte)) : Nat :=
  match contents with
  | none => fnvOffset
  | some bytes => fnv1a64_file_loop bytes fnvOffset

/- Helper lemmas about the FNV loop. -/

theorem fnvLoop_eq_foldl (bytes : List Byte) (hash : Nat) :
    fnvLoop bytes hash = bytes.foldl fnvStep hash := by
  induction bytes generalizing hash with
  | nil => rfl
  | cons b rest ih => simp [fnvLoop, List.foldl, ih]

theorem fnvLoop_append (xs ys : List Byte) (hash : Nat) :
    fnvLoop (xs ++ ys) hash = fnvLoop ys (fnvLoop xs hash) := by
  induction xs generalizing hash with
  | nil => rfl
  | cons b rest ih => simp [fnvLoop, ih]

theorem fnv1a64_file_loop_eq (bytes : List Byte) (hash : Nat) :
    fnv1a64_file_loop bytes hash = fnvLoop bytes hash := by
  rw [fnv1a64_file_loop]
  by_cases hb : bytes.isEmpty
  · rw [if_pos hb]
    rw [List.isEmpty_iff] at hb
    subst hb
    rfl
  · rw [if_neg hb]
    rw [fnv1a64_file_loop_eq (bytes.drop 8192) (fnvLoop (bytes.take 8192) hash)]
    rw [← fnvLoop_append, List.take_append_drop]
termination_by bytes.length
decreasing_by
  simp only [List.length_drop]
  have hne : bytes ≠ [] := by
    intro h
    subst h
    simp_all
  have hpos : 0 < bytes.length := List.length_pos.mpr hne
  omega

/-- C1: for every byte sequence, `otoshi_fnv1a64` folds the FNV-1a 64-bit
step `acc = (acc XOR b) * 1099511628211 (mod 2 ^ 64)` over the bytes in
order starting from the offset basis `1469598103934665603`, and a `NULL`
data pointer or a zero length leaves the offset basis untouched. -/
theorem fnv1a64_spec (data : List Byte) :
    otoshi_fnv1a64 (some data)
      = data.foldl (fun acc b => ((acc ^^^ b.val) * 1099511628211) % 2 ^ 64)
          1469598103934665603
    ∧ otoshi_fnv1a64 none = 1469598103934665603
    ∧ otoshi_fnv1a64 (some []) = 1469598103934665603 := by
  refine ⟨?_, rfl, rfl⟩
  rw [otoshi_fnv1a64, fnvLoop_eq_foldl]
  rfl

/-- C2: hashing a byte sequence split into two or more consecutive chunks,
seeding each chunk with the accumulator left by the previous one, yields the
same digest as hashing the concatenated sequence in one call. -/
theorem fnv1a64_chunked_eq (chunks : List (List Byte)) (h : 2 ≤ chunks.length) :
    fnv1a64_chunked chunks = otoshi_fnv1a64 (some chunks.flatten) := by
  clear h
  rw [fnv1a64_chunked, otoshi_fnv1a64]
  generalize fnvOffset = hash
  induction chunks generalizing hash with
  | nil => rfl
  | cons c rest ih => simp [List.flatten, fnvLoop_append, ih]

/-- Witness for C2 at a concrete two-chunk split. -/
theorem fnv1a64_chunked_eq_witness :
    2 ≤ ([[(3 : Byte), 7], [5]] : List (List Byte)).length
    ∧ fnv1a64_chunked [[(3 : Byte), 7], [5]]
        = otoshi_fnv1a64 (some ([[(3 : Byte), 7], [5]] : List (List Byte)).flatten) :=
  ⟨by decide, fnv1a64_chunked_eq [[(3 : Byte), 7], [5]] (by decide)⟩

/- Constant-time comparator `otoshi_consttime_eq` from
`otoshi_crypto_helper.c`. -/

/-- The `for (size_t i = 0; i < len; ++i)` loop of `otoshi_consttime_eq`,
consuming the two byte sequences in lockstep and accumulating
`diff |= (uint8_t)(left[i] ^ right[i])`.  The XOR of two bytes is again a
byte, so the `uint8_t` cast is the identity here. -/
def consttimeLoop : List Byte → List Byte → Nat → Nat
  | a :: l, b :: r, diff => consttimeLoop l r (diff ||| (a.val ^^^ b.val))
  | _, _, diff => diff

/-- `otoshi_consttime_eq(left, right, len)`: `none` models a `NULL` pointer
(immediately rejected with `0`, i.e. `false`); `some l` models a non-null
buffer, of which the function reads the first `len` bytes.  The final
`diff == 0 ? 1 : 0` is modelled as a `Bool`. -/
def otoshi_consttime_eq (left right : Option (List Byte)) (len : Nat) : Bool :=
  match left, right with
  | some l, some r => consttimeLoop (l.take len) (r.take len) 0 == 0
  | _, _ => false

/-- Instrumented copy of the comparison loop that also records the index of
every loop iteration, i.e. of every position at which both `left[i]` and
`right[i]` are read.  The data flow of the `diff` accumulator is unchanged. -/
def consttimeLoopIdx : List Byte → List Byte → Nat → Nat → Nat × List Nat
  | a :: l, b :: r, i, diff =>
      let rest := consttimeLoopIdx l r (i + 1) (diff ||| (a.val ^^^ b.val))
      (rest.1, i :: rest.2)
  | _, _, _, diff => (diff, [])

theorem nat_or_eq_zero (x y : Nat) : x ||| y = 0 ↔ x = 0 ∧ y = 0 := by
  constructor
  · intro h
    have hbit : ∀ i, x.testBit i = false ∧ y.testBit i = false := by
      intro i
      have hb := congrArg (fun n => Nat.testBit n i) h
      simp only [Nat.testBit_or, Nat.zero_testBit] at hb
      exact Bool.or_eq_false_iff.mp hb
    constructor
    · exact Nat.eq_of_testBit_eq fun i => by simp [Nat.zero_testBit, (hbit i).1]
    · exact Nat.eq_of_testBit_eq fun i => by simp [Nat.zero_testBit, (hbit i).2]
  · rintro ⟨rfl, rfl⟩
    rfl

theorem consttimeLoop_eq_zero (l r : List Byte) (diff : Nat)
    (hlen : l.length = r.length) :
    (consttimeLoop l r diff = 0 ↔ diff = 0 ∧ l = r) := by
  induction l generalizing r diff with
  | nil =>
    cases r with
    | nil => simp [consttimeLoop]
    | cons b r => simp at hlen
  | cons a l ih =>
    cases r with
    | nil => simp at hlen
    | cons b r =>
      simp only [List.length_cons, Nat.add_right_cancel_iff] at hlen
      rw [consttimeLoop, ih r _ hlen, nat_or_eq_zero, Nat.xor_eq_zero]
      constructor
      · rintro ⟨⟨hd, hab⟩, hlr⟩
        exact ⟨hd, by simp [Fin.val_injective hab, hlr]⟩
      · rintro ⟨hd, hlr⟩
        injection hlr with hab hlr
        exact ⟨⟨hd, by rw [hab]⟩, hlr⟩

/-- C5: with valid (non-null) buffers holding at least `len` bytes each,
`otoshi_consttime_eq` returns `true` exactly when the first `len` bytes of
the two buffers agree pairwise (so it returns `true` at `len = 0`), and a
`NULL` pointer on either side yields `false` whatever `len` is. -/
theorem consttime_eq_correct (l r : List Byte) (len : Nat)
    (hl : len ≤ l.length) (hr : len ≤ r.length) :
    (otoshi_consttime_eq (some l) (some r) len = true ↔ l.take len = r.take len)
    ∧ otoshi_consttime_eq (some l) (some r) 0 = true
    ∧ otoshi_consttime_eq none (some r) len = false
    ∧ otoshi_consttime_eq (some l) none len = false
    ∧ otoshi_consttime_eq none none len = false := by
  have hmain : ∀ len, len ≤ l.length → len ≤ r.length →
      (otoshi_consttime_eq (some l) (some r) len = true ↔ l.take len = r.take len) := by
    intro n hnl hnr
    rw [otoshi_consttime_eq, beq_iff_eq]
    rw [consttimeLoop_eq_zero (l.take n) (r.take n) 0
      (by simp [List.length_take, Nat.min_eq_left hnl, Nat.min_eq_left hnr])]
    simp
  exact ⟨hmain len hl hr, by simpa using (hmain 0 (Nat.zero_le _) (Nat.zero_le _)).mpr (by simp),
    rfl, rfl, rfl⟩

/-- Witness for C5 at concrete equal and unequal buffers. -/
theorem consttime_eq_correct_witness :
    ((otoshi_consttime_eq (some [(1 : Byte), 2]) (some [(1 : Byte), 9]) 2 = true
        ↔ ([(1 : Byte), 2]).take 2 = ([(1 : Byte), 9]).take 2)
      ∧ otoshi_consttime_eq (some [(1 : Byte), 2]) (some [(1 : Byte), 9]) 0 = true
      ∧ otoshi_consttime_eq none (some [(1 : Byte), 9]) 2 = false
      ∧ otoshi_consttime_eq (some [(1 : Byte), 2]) none 2 = false
      ∧ otoshi_consttime_eq none none 2 = false) :=
  consttime_eq_correct [(1 : Byte), 2] [(1 : Byte), 9] 2 (by decide) (by decide)

theorem consttimeLoopIdx_spec (l r : List Byte) (i diff : Nat)
    (hlen : l.length = r.length) :
    consttimeLoopIdx l r i diff
      = (consttimeLoop l r diff, List.range' i l.length) := by
  induction l generalizing r i diff with
  | nil =>
    cases r with
    | nil => rfl
    | cons b r => simp at hlen
  | cons a l ih =>
    cases r with
    | nil => simp at hlen
    | cons b r =>
      simp only [List.length_cons, Nat.add_right_cancel_iff] at hlen
      rw [consttimeLoopIdx, consttimeLoop]
      simp only [ih r (i + 1) _ hlen]
      rw [List.length_cons, List.range'_succ i l.length 1]

/-- C6: on non-null buffers of the declared length `len`, the comparison
loop never short-circuits: it visits position `0, 1, ..., len - 1` in order —
reading both `left[i]` and `right[i]` at each of them, hence the same `2 * len`
byte accesses wherever (or whether) the inputs differ — while its `diff`
accumulator computes exactly the running OR of the per-position XOR
differences that `otoshi_consttime_eq` tests against zero. -/
theorem consttime_eq_constant_access (l r : List Byte) (len : Nat)
    (hl : l.length = len) (hr : r.length = len) :
    (consttimeLoopIdx l r 0 0).2 = List.range len
    ∧ 2 * (consttimeLoopIdx l r 0 0).2.length = 2 * len
    ∧ (consttimeLoopIdx l r 0 0).1 = consttimeLoop l r 0 := by
  have h := consttimeLoopIdx_spec l r 0 0 (by rw [hl, hr])
  rw [h]
  refine ⟨?_, ?_, rfl⟩
  · rw [hl, List.range_eq_range' len]
  · rw [hl, List.length_range']

/-- Witness for C6 at concrete buffers differing in the first byte. -/
theorem consttime_eq_constant_access_witness :
    (consttimeLoopIdx [(9 : Byte), 2] [(1 : Byte), 2] 0 0).2 = List.range 2
    ∧ 2 * (consttimeLoopIdx [(9 : Byte), 2] [(1 : Byte), 2] 0 0).2.length = 2 * 2
    ∧ (consttimeLoopIdx [(9 : Byte), 2] [(1 : Byte), 2] 0 0).1
        = consttimeLoop [(9 : Byte), 2] [(1 : Byte), 2] 0 :=
  consttime_eq_constant_access [(9 : Byte), 2] [(1 : Byte), 2] 2 (by decide) (by decide)

/-- C3: the file hasher `fnv1a64_file`, reading in 8192-byte chunks and
hashing only the bytes each read returns, produces exactly the digest the
one-shot `otoshi_fnv1a64` produces on the full content; an unopenable file
yields the offset basis. -/
theorem fnv1a64_file_refines (bytes : List Byte) :
    fnv1a64_file (some bytes) = otoshi_fnv1a64 (some bytes)
    ∧ fnv1a64_file none = fnvOffset := by
  refine ⟨?_, rfl⟩
  rw [fnv1a64_file, otoshi_fnv1a64, fnv1a64_file_loop_eq]

/- Directory scanner: the `main` loop of `otoshi_fs_scanner.cpp`. -/

/-- One entry yielded by the `recursive_directory_iterator` (iteration with
`skip_permission_denied`, so permission-denied directories simply produce no
entries).  `file_size = none` models `entry.file_size(ec)` reporting an error
(the entry is skipped); `content` is what opening the entry's path gives the
file hasher (`none` = the open fails). -/
structure DirEntry where
  is_regular_file : Bool
  file_size : Option Nat
  content : Option (List Byte)
deriving DecidableEq

/-- The three accumulators of `main`: `uint64_t file_count`,
`uint64_t total_bytes`, `uint64_t aggregate`. -/
structure ScanState where
  file_count : Nat
  total_bytes : Nat
  aggregate : Nat
deriving DecidableEq

/-- Accumulator values just before the traversal loop of `main`. -/
def initState : ScanState := ⟨0, 0, 1469598103934665603⟩

/-- One iteration of the traversal loop of `main`: non-regular entries and
entries whose size query errors are skipped (`continue`), otherwise the count,
the byte total and the aggregate are updated with `uint64_t` wraparound. -/
def scanStep (s : ScanState) (e : DirEntry) : ScanState :=
  if e.is_regular_file then
    match e.file_size with
    | none => s
    | some size =>
        { file_count := (s.file_count + 1) % U64
          total_bytes := (s.total_bytes + size) % U64
          aggregate := ((s.aggregate ^^^ fnv1a64_file e.content) * fnvPrime) % U64 }
  else s

/-- The whole traversal loop of `main` over the entries the iterator yields,
in traversal order. -/
def scanFold (entries : List DirEntry) : ScanState :=
  entries.foldl scanStep initState

/-- The entries `main` actually processes: regular files whose size query
succeeded. -/
def visitedEntries (entries : List DirEntry) : List DirEntry :=
  entries.filter (fun e => e.is_regular_file && e.file_size.isSome)

/-- Size of a visited entry (its `file_size` is a `some`). -/
def entrySize (e : DirEntry) : Nat :=
  e.file_size.getD 0

theorem scanFold_spec (entries : List DirEntry) :
    (scanFold entries).file_count = (visitedEntries entries).length % U64
    ∧ (scanFold entries).total_bytes
        = ((visitedEntries entries).map entrySize).sum % U64
    ∧ (scanFold entries).aggregate
        = ((visitedEntries entries).map (fun e => fnv1a64_file e.content)).foldl
            (fun agg d => ((agg ^^^ d) * fnvPrime) % U64) fnvOffset := by
  have general : ∀ (es : List DirEntry) (s : ScanState),
      s.file_count < U64 → s.total_bytes < U64 →
      (es.foldl scanStep s).file_count
          = (s.file_count + (visitedEntries es).length) % U64
      ∧ (es.foldl scanStep s).total_bytes
          = (s.total_bytes + ((visitedEntries es).map entrySize).sum) % U64
      ∧ (es.foldl scanStep s).aggregate
          = ((visitedEntries es).map (fun e => fnv1a64_file e.content)).foldl
              (fun agg d => ((agg ^^^ d) * fnvPrime) % U64) s.aggregate := by
    intro es
    induction es with
    | nil =>
      intro s hc hb
      refine ⟨?_, ?_, rfl⟩
      · simp [visitedEntries, Nat.mod_eq_of_lt hc]
      · simp [visitedEntries, Nat.mod_eq_of_lt hb]
    | cons e rest ih =>
      intro s hc hb
      by_cases hreg : e.is_regular_file
      · cases hsz : e.file_size with
        | none =>
          have hskip : scanStep s e = s := by
            rw [scanStep, if_pos hreg, hsz]
          have hvis : visitedEntries (e :: rest) = visitedEntries rest := by
            simp [visitedEntries, List.filter, hreg, hsz, Option.isSome]
          simp only [List.foldl, hskip, hvis]
          exact ih s hc hb
        | some size =>
          have hnext : scanStep s e =
              { file_count := (s.file_count + 1) % U64
                total_bytes := (s.total_bytes + size) % U64
                aggregate := ((s.aggregate ^^^ fnv1a64_file e.content) * fnvPrime) % U64 } := by
            rw [scanStep, if_pos hreg, hsz]
          have hvis : visitedEntries (e :: rest) = e :: visitedEntries rest := by
            simp [visitedEntries, List.filter, hreg, hsz, Option.isSome]
          simp only [List.foldl, hnext, hvis]
          obtain ⟨ihc, ihb, iha⟩ := ih
            { file_count := (s.file_count + 1) % U64
              total_bytes := (s.total_bytes + size) % U64
              aggregate := ((s.aggregate ^^^ fnv1a64_file e.content) * fnvPrime) % U64 }
            (Nat.mod_lt _ (by rw [U64]; positivity))
            (Nat.mod_lt _ (by rw [U64]; positivity))
          refine ⟨?_, ?_, ?_⟩
          · rw [ihc, Nat.mod_add_mod]
            simp only [List.length_cons]
            congr 1
            ring
          · rw [ihb, Nat.mod_add_mod]
            simp only [List.map_cons, List.sum_cons, entrySize, hsz, Option.getD_some]
            congr 1
            ring
          · rw [iha]
      · have hskip : scanStep s e = s := by
          rw [scanStep, if_neg hreg]
        have hvis : visitedEntries (e :: rest) = visitedEntries rest := by
          simp [visitedEntries, List.filter, hreg]
        simp only [List.foldl, hskip, hvis]
        exact ih s hc hb
  have h := general entries initState (by rw [initState, U64]; positivity)
    (by rw [initState, U64]; positivity)
  simpa [initState, fnvOffset] using h

/- Output rendering of `main`: the `ostringstream` JSON line and the
`std::hex << std::setw(16) << std::setfill('0')` digest rendering. -/

/-- Decimal digit character, as `operator<<` prints `uint64_t` digits. -/
def decDigit (n : Nat) : Char := Char.ofNat (48 + n)

/-- Lowercase hexadecimal digit character, as `std::hex` prints digits. -/
def hexDigit (n : Nat) : Char :=
  if n < 10 then Char.ofNat (48 + n) else Char.ofNat (87 + n)

/-- Decimal rendering of an unsigned value, most significant digit first,
with no leading zeros (a lone `0` for zero) — the digits `operator<<`
emits for a `uint64_t`. -/
def decStr (n : Nat) : List Char :=
  if n < 10 then [decDigit n]
  else decStr (n / 10) ++ [decDigit (n % 10)]
termination_by n
decreasing_by
  exact Nat.div_lt_self (by omega) (by omega)

/-- Lowercase hexadecimal rendering of an unsigned value, most significant
digit first, with no leading zeros — the digits `std::hex` emits. -/
def hexStr (n : Nat) : List Char :=
  if n < 16 then [hexDigit n]
  else hexStr (n / 16) ++ [hexDigit (n % 16)]
termination_by n
decreasing_by
  exact Nat.div_lt_self (by omega) (by omega)

/-- Effect of `std::setw(16)` with `std::setfill('0')` on the hexadecimal
rendering: pad on the left with `'0'` up to width 16. -/
def hexPad16 (n : Nat) : String :=
  String.mk (List.replicate (16 - (hexStr n).length) (Char.ofNat 48) ++ hexStr n)

/-- The JSON line `main` assembles in its `ostringstream` (the `{` and `}`
are the braces of the JSON object). -/
def scanOutput (rootStr : String) (s : ScanState) : String :=
  "\x7b\"root\":\"" ++ rootStr ++ "\",\"file_count\":"
    ++ String.mk (decStr s.file_count)
    ++ ",\"total_bytes\":" ++ String.mk (decStr s.total_bytes)
    ++ ",\"aggregate_hash\":\"0x" ++ hexPad16 s.aggregate ++ "\"\x7d"

/-- Decimal digit characters `0`-`9`. -/
def isDecDigit (c : Char) : Bool :=
  48 ≤ c.toNat && c.toNat ≤ 57

/-- Lowercase hexadecimal digit characters `0`-`9`, `a`-`f`. -/
def isHexLower (c : Char) : Bool :=
  (48 ≤ c.toNat && c.toNat ≤ 57) || (97 ≤ c.toNat && c.toNat ≤ 102)

theorem hexDigit_isHexLower : ∀ d < 16, isHexLower (hexDigit d) = true := by decide

theorem hexStr_chars (n : Nat) : ∀ c ∈ hexStr n, isHexLower c = true := by
  rw [hexStr]
  by_cases h : n < 16
  · rw [if_pos h]
    intro c hc
    rw [List.mem_singleton] at hc
    subst hc
    exact hexDigit_isHexLower n h
  · rw [if_neg h]
    intro c hc
    rcases List.mem_append.mp hc with hc | hc
    · exact hexStr_chars (n / 16) c hc
    · rw [List.mem_singleton] at hc
      subst hc
      exact hexDigit_isHexLower (n % 16) (Nat.mod_lt n (by omega))
termination_by n
decreasing_by
  exact Nat.div_lt_self (by omega) (by omega)

theorem decDigit_isDecDigit : ∀ d < 10, isDecDigit (decDigit d) = true := by decide

theorem decStr_chars (n : Nat) : ∀ c ∈ decStr n, isDecDigit c = true := by
  rw [decStr]
  by_cases h : n < 10
  · rw [if_pos h]
    intro c hc
    rw [List.mem_singleton] at hc
    subst hc
    exact decDigit_isDecDigit n h
  · rw [if_neg h]
    intro c hc
    rcases List.mem_append.mp hc with hc | hc
    · exact decStr_chars (n / 10) c hc
    · rw [List.mem_singleton] at hc
      subst hc
      exact decDigit_isDecDigit (n % 10) (Nat.mod_lt n (by omega))
termination_by n
decreasing_by
  exact Nat.div_lt_self (by omega) (by omega)

theorem hexStr_length_le (k : Nat) : ∀ n, n < 16 ^ k → 1 ≤ k → (hexStr n).length ≤ k := by
  induction k with
  | zero => omega
  | succ k ih =>
    intro n hn _
    rw [hexStr]
    by_cases h : n < 16
    · rw [if_pos h]
      simp
    · rw [if_neg h]
      have hk : 1 ≤ k := by
        by_contra hk0
        have : k = 0 := by omega
        subst this
        simp [pow_one] at hn
        omega
      have hdiv : n / 16 < 16 ^ k := by
        rw [Nat.div_lt_iff_lt_mul (by omega)]
        calc n < 16 ^ (k + 1) := hn
        _ = 16 ^ k * 16 := by ring
      have := ih (n / 16) hdiv hk
      simp only [List.length_append, List.length_cons, List.length_nil]
      omega

theorem aggregate_lt (entries : List DirEntry) :
    ∀ s : ScanState, s.aggregate < U64 →
      (entries.foldl scanStep s).aggregate < U64 := by
  induction entries with
  | nil => intro s hs; exact hs
  | cons e rest ih =>
    intro s hs
    rw [List.foldl]
    apply ih
    rw [scanStep]
    by_cases hreg : e.is_regular_file
    · rw [if_pos hreg]
      cases e.file_size with
      | none => exact hs
      | some size => exact Nat.mod_lt _ (by rw [U64]; positivity)
    · rw [if_neg hreg]
      exact hs

theorem scanFold_aggregate_lt (entries : List DirEntry) :
    (scanFold entries).aggregate < U64 :=
  aggregate_lt entries initState (by rw [initState, U64]; norm_num)

/-- C8: on a successful scan the emitted line is the JSON object with
exactly the keys `root` (the root string as given), `file_count` and
`total_bytes` (decimal integers) and `aggregate_hash`, the latter rendered
as `0x` followed by exactly 16 lowercase hexadecimal digits, zero-padded;
and the line contains no newline when the root string contains none. -/
theorem scan_output_format (rootStr : String) (entries : List DirEntry) :
    (scanOutput rootStr (scanFold entries)
      = "\x7b\"root\":\"" ++ rootStr ++ "\",\"file_count\":"
          ++ String.mk (decStr (scanFold entries).file_count)
          ++ ",\"total_bytes\":" ++ String.mk (decStr (scanFold entries).total_bytes)
          ++ ",\"aggregate_hash\":\"0x" ++ hexPad16 (scanFold entries).aggregate ++ "\"\x7d")
    ∧ (hexPad16 (scanFold entries).aggregate).data.length = 16
    ∧ (∀ c ∈ (hexPad16 (scanFold entries).aggregate).data, isHexLower c = true)
    ∧ ((∀ c ∈ rootStr.data, c ≠ Char.ofNat 10) →
        ∀ c ∈ (scanOutput rootStr (scanFold entries)).data, c ≠ Char.ofNat 10) := by
  have hagg : (scanFold entries).aggregate < 16 ^ 16 := by
    have h := scanFold_aggregate_lt entries
    rw [U64] at h
    calc (scanFold entries).aggregate < 2 ^ 64 := h
    _ = 16 ^ 16 := by norm_num
  have hlen : (hexStr (scanFold entries).aggregate).length ≤ 16 :=
    hexStr_length_le 16 _ hagg (by omega)
  refine ⟨rfl, ?_, ?_, ?_⟩
  · show (List.replicate (16 - (hexStr (scanFold entries).aggregate).length)
      (Char.ofNat 48) ++ hexStr (scanFold entries).aggregate).length = 16
    rw [List.length_append, List.length_replicate]
    omega
  · intro c hc
    rcases List.mem_append.mp hc with hc | hc
    · rw [List.eq_of_mem_replicate hc]
      decide
    · exact hexStr_chars _ c hc
  · intro hroot c hc
    simp only [scanOutput, String.data_append] at hc
    have hdec : ∀ m : Nat, ∀ c ∈ decStr m, c ≠ Char.ofNat 10 := by
      intro m c hm
      have := decStr_chars m c hm
      rw [isDecDigit] at this
      intro hceq
      subst hceq
      simp at this
    have hhex : ∀ c ∈ (hexPad16 (scanFold entries).aggregate).data, c ≠ Char.ofNat 10 := by
      intro c hm
      rcases List.mem_append.mp hm with hm | hm
      · rw [List.eq_of_mem_replicate hm]
        decide
      · have := hexStr_chars _ c hm
        rw [isHexLower] at this
        intro hceq
        subst hceq
        simp at this
    have hlit1 : ∀ x ∈ ("\x7b\"root\":\"" : String).data, x ≠ Char.ofNat 10 := by decide
    have hlit2 : ∀ x ∈ ("\",\"file_count\":" : String).data, x ≠ Char.ofNat 10 := by decide
    have hlit3 : ∀ x ∈ (",\"total_bytes\":" : String).data, x ≠ Char.ofNat 10 := by decide
    have hlit4 : ∀ x ∈ (",\"aggregate_hash\":\"0x" : String).data, x ≠ Char.ofNat 10 := by
      decide
    have hlit5 : ∀ x ∈ ("\"\x7d" : String).data, x ≠ Char.ofNat 10 := by decide
    simp only [List.mem_append] at hc
    rcases hc with ((((((((hc | hc) | hc) | hc) | hc) | hc) | hc) | hc) | hc)
    · exact hlit1 c hc
    · exact hroot c hc
    · exact hlit2 c hc
    · exact hdec _ c hc
    · exact hlit3 c hc
    · exact hdec _ c hc
    · exact hlit4 c hc
    · exact hhex c hc
    · exact hlit5 c hc

/-- Witness for C8's single-line clause at a concrete newline-free root. -/
theorem scan_output_format_witness :
    (∀ c ∈ ("r" : String).data, c ≠ Char.ofNat 10)
    ∧ ∀ c ∈ (scanOutput "r" (scanFold [])).data, c ≠ Char.ofNat 10 :=
  ⟨by decide, (scan_output_format "r" []).2.2.2 (by decide)⟩

/-- C4: the final aggregate of the scan is the left fold of
`aggregate = (aggregate XOR file_digest) * prime (mod 2 ^ 64)` over the
visited files' digests in traversal order, seeded with the offset basis; a
scan visiting no files leaves `file_count = 0`, `total_bytes = 0` and the
aggregate at the offset basis `1469598103934665603`. -/
theorem scan_aggregate_spec (entries : List DirEntry) :
    (scanFold entries).aggregate
      = ((visitedEntries entries).map (fun e => fnv1a64_file e.content)).foldl
          (fun agg d => ((agg ^^^ d) * fnvPrime) % U64) fnvOffset
    ∧ scanFold [] = ⟨0, 0, 1469598103934665603⟩ :=
  ⟨(scanFold_spec entries).2.2, rfl⟩

/-- C7 counterexample: two visited regular files of size `2 ^ 63` each make
the `uint64_t` byte total wrap to `0`, which is not the true sum `2 ^ 64` of
the visited files' sizes, so the reported total does not always equal that
sum. -/
theorem scan_totals_exact_cex :
    (scanFold [⟨true, some (2 ^ 63), none⟩, ⟨true, some (2 ^ 63), none⟩]).total_bytes = 0
    ∧ ((visitedEntries [⟨true, some (2 ^ 63), none⟩, ⟨true, some (2 ^ 63), none⟩]).map
        entrySize).sum = 2 ^ 64
    ∧ (0 : Nat) ≠ 2 ^ 64 := by
  refine ⟨?_, by decide, by decide⟩
  have h := (scanFold_spec
    [⟨true, some (2 ^ 63), none⟩, ⟨true, some (2 ^ 63), none⟩]).2.1
  rw [h]
  decide

/-- C7 (amended): the reported file count and byte total equal the number of
visited regular files and the sum of their sizes whenever those true values
fit in 64 bits (otherwise the `uint64_t` accumulators reduce them modulo
`2 ^ 64`); permission-denied or errored entries — in particular entries whose
size query fails — are excluded from both, not counted as zero-size. -/
theorem scan_totals_exact (entries : List DirEntry)
    (hc : (visitedEntries entries).length < U64)
    (hb : ((visitedEntries entries).map entrySize).sum < U64) :
    (scanFold entries).file_count = (visitedEntries entries).length
    ∧ (scanFold entries).total_bytes = ((visitedEntries entries).map entrySize).sum := by
  obtain ⟨h1, h2, _⟩ := scanFold_spec entries
  exact ⟨by rw [h1, Nat.mod_eq_of_lt hc], by rw [h2, Nat.mod_eq_of_lt hb]⟩

/-- Witness for the amended C7: one regular file of size 5 is counted, while
a non-regular entry and an entry with a failing size query are excluded. -/
theorem scan_totals_exact_witness :
    (visitedEntries [⟨true, some 5, none⟩, ⟨false, some 3, none⟩, ⟨true, none, none⟩]).length < U64
    ∧ ((visitedEntries [⟨true, some 5, none⟩, ⟨false, some 3, none⟩, ⟨true, none, none⟩]).map
        entrySize).sum < U64
    ∧ (scanFold [⟨true, some 5, none⟩, ⟨false, some 3, none⟩, ⟨true, none, none⟩]).file_count
        = (visitedEntries [⟨true, some 5, none⟩, ⟨false, some 3, none⟩, ⟨true, none, none⟩]).length
    ∧ (scanFold [⟨true, some 5, none⟩, ⟨false, some 3, none⟩, ⟨true, none, none⟩]).total_bytes
        = ((visitedEntries [⟨true, some 5, none⟩, ⟨false, some 3, none⟩, ⟨true, none, none⟩]).map
            entrySize).sum := by
  have h := scan_totals_exact
    [⟨true, some 5, none⟩, ⟨false, some 3, none⟩, ⟨true, none, none⟩]
    (by decide) (by decide)
  exact ⟨by decide, by decide, h.1, h.2⟩

/-- C10: the `uint64_t` accumulators make the reported totals the true
values reduced modulo `2 ^ 64`: `file_count` is the number of visited regular
files mod `2 ^ 64` and `total_bytes` the sum of their sizes mod `2 ^ 64`,
with no overflow detection. -/
theorem scan_totals_mod (entries : List DirEntry) :
    (scanFold entries).file_count = (visitedEntries entries).length % U64
    ∧ (scanFold entries).total_bytes
        = ((visitedEntries entries).map entrySize).sum % U64 :=
  ⟨(scanFold_spec entries).1, (scanFold_spec entries).2.1⟩

/- Argument handling and exit behaviour of `main`. -/

/-- What the filesystem says about the root path `main` is given:
`absent` models `!fs::exists(root)`, `notDirectory` an existing path with
`!fs::is_directory(root)` (e.g. a regular file), and `directory entries` a
directory whose recursive traversal yields `entries` in order. -/
inductive RootLookup where
  | absent : RootLookup
  | notDirectory : RootLookup
  | directory : List DirEntry → RootLookup

/-- Observable outcome of one run of the tool: the process exit code, the
line written to standard output (if any) and the message written to the
error stream (if any).  Both streams end with the newline the program
writes (`std::endl` resp. `"\n"`). -/
structure ProcResult where
  exitCode : Nat
  stdout : Option String
  stderr : Option String
deriving DecidableEq

/-- Usage message `main` prints on missing arguments. -/
def usageMsg : String := "usage: otoshi_fs_scanner <root-dir>\n"

/-- Error message `main` prints on an invalid root. -/
def invalidRootMsg (rootStr : String) : String :=
  "invalid root: " ++ rootStr ++ "\n"

/-- `main` of `otoshi_fs_scanner.cpp`: `argv` is the full argument vector
(program name first, so `argc < 2` is `argv` having at most one element),
and `lookup` answers the filesystem queries about the root path. -/
def runScanner (argv : List String) (lookup : String → RootLookup) : ProcResult :=
  match argv with
  | _prog :: rootStr :: _ =>
    match lookup rootStr with
    | RootLookup.absent => ⟨1, none, some (invalidRootMsg rootStr)⟩
    | RootLookup.notDirectory => ⟨1, none, some (invalidRootMsg rootStr)⟩
    | RootLookup.directory entries =>
        ⟨0, some (scanOutput rootStr (scanFold entries) ++ "\n"), none⟩
  | _ => ⟨1, none, some usageMsg⟩

/-- A filesystem in which the root does not exist. -/
def lookupAbsent : String → RootLookup := fun _ => RootLookup.absent

/-- A filesystem in which the root is an existing non-directory. -/
def lookupNotDirectory : String → RootLookup := fun _ => RootLookup.notDirectory

/-- A filesystem in which the root is an empty directory. -/
def lookupEmptyDir : String → RootLookup := fun _ => RootLookup.directory []

/-- C9: with no positional argument the tool exits with code 1 printing the
usage message to the error stream and nothing to standard output; with a
root that does not exist, or exists but is not a directory (e.g. a regular
file), it exits with code 1 printing an error to the error stream and no
JSON line; and on a valid directory root it exits with code 0 emitting the
JSON line. -/
theorem scanner_exit_behavior (prog rootStr : String) (rest : List String)
    (lookup : String → RootLookup) :
    runScanner [] lookup = ⟨1, none, some usageMsg⟩
    ∧ runScanner [prog] lookup = ⟨1, none, some usageMsg⟩
    ∧ (lookup rootStr = RootLookup.absent ∨ lookup rootStr = RootLookup.notDirectory →
        runScanner (prog :: rootStr :: rest) lookup
          = ⟨1, none, some (invalidRootMsg rootStr)⟩)
    ∧ (∀ entries, lookup rootStr = RootLookup.directory entries →
        runScanner (prog :: rootStr :: rest) lookup
          = ⟨0, some (scanOutput rootStr (scanFold entries) ++ "\n"), none⟩) := by
  refine ⟨rfl, rfl, ?_, ?_⟩
  · intro h
    rcases h with h | h <;> rw [runScanner, h]
  · intro entries h
    rw [runScanner, h]

/-- Witness for C9 at a missing argument, an absent root, a non-directory
root and an empty directory root. -/
theorem scanner_exit_behavior_witness :
    runScanner ["scanner"] lookupAbsent = ⟨1, none, some usageMsg⟩
    ∧ runScanner ["scanner", "root"] lookupAbsent
        = ⟨1, none, some (invalidRootMsg "root")⟩
    ∧ runScanner ["scanner", "root"] lookupNotDirectory
        = ⟨1, none, some (invalidRootMsg "root")⟩
    ∧ runScanner ["scanner", "root"] lookupEmptyDir
        = ⟨0, some (scanOutput "root" (scanFold []) ++ "\n"), none⟩ :=
  ⟨(scanner_exit_behavior "scanner" "root" [] lookupAbsent).2.1,
    (scanner_exit_behavior "scanner" "root" [] lookupAbsent).2.2.1 (Or.inl rfl),
    (scanner_exit_behavior "scanner" "root" [] lookupNotDirectory).2.2.1 (Or.inr rfl),
    (scanner_exit_behavior "scanner" "root" [] lookupEmptyDir).2.2.2 [] rfl⟩

/-- C8 counterexample: a root path containing a newline is a legal POSIX
directory name, the scan over it succeeds (exit code 0), and `main` embeds
the root verbatim with no JSON escaping, so the emitted text contains an
interior newline: the output of this successful scan is not a single line. -/
theorem scan_output_single_line_cex :
    (runScanner ["scanner", "a\nb"] lookupEmptyDir).exitCode = 0
    ∧ (runScanner ["scanner", "a\nb"] lookupEmptyDir).stdout
        = some (scanOutput "a\nb" (scanFold []) ++ "\n")
    ∧ Char.ofNat 10 ∈ (scanOutput "a\nb" (scanFold [])).data := by
  refine ⟨rfl, rfl, ?_⟩
  have hroot : Char.ofNat 10 ∈ ("a\nb" : String).data := by decide
  simp only [scanOutput, String.data_append, List.mem_append]
  tauto

end Otoshi
